import Mathlib

/-!
Verification of the acafeed repository against its specification.

The development shallowly embeds the Python sources:
* `src/acafeed/acafeed.py` — the `Feed` record and the `FeedSource` registry
  (add / remove / change / save / load), including the exact mutation order of
  the Python code (in particular, `change` assigns `feed.link` before the
  duplicate-name check, and `load` assigns `self._feeds` before rebuilding
  `self._feed_names`).
* `src/acafeed/feedclassifier.py` — the `judge` interest matcher.
* `src/acafeed/entry_parser.py` — the entry normalizer, including faithful
  models of the three regex substitutions of `clean_summary`.

Machine timestamps are modelled as `Nat`; the external `feedparser.parse`
probe performed by `Feed.__post_init__` is modelled as an oracle
`probe : String → Nat` returning the HTTP status of the probed link; the
lenient external date parser of `entry_parser.py` is modelled as an oracle
`String → Option Nat` (`none` = parsing raised).  Python exceptions are
modelled with `Except`; pickled file contents are modelled by `FileContent`.
-/

namespace Acafeed

/-- One feed record, from the `Feed` dataclass of `acafeed.py`
(fields `link`, `name`, `add_time`, `last_updated`). -/
structure Feed where
  link : String
  name : String
  add_time : Nat
  last_updated : Nat
deriving DecidableEq, Repr

/-- A dynamically typed Python argument value, used to express the runtime
type checks of `Feed.__post_init__` (a string, an int, a datetime, or None). -/
inductive PyVal where
  | str (s : String)
  | int (n : Int)
  | dt (t : Nat)
  | noneV
deriving DecidableEq, Repr

/-- The errors `Feed.__post_init__` can raise: `TypeError` for a non-string
`link`/`name` or a non-datetime timestamp, `ValueError` when the probe of the
link reports HTTP 410. -/
inductive FeedErr where
  | typeError (msg : String)
  | valueError (msg : String)
deriving DecidableEq, Repr

/-- `Feed(link, name, add_time, last_updated)` of `acafeed.py`: the four
`isinstance` checks of `__post_init__` in source order, then the
`feedparser.parse(self.link)` probe; status 410 raises `ValueError`
(status 301 only prints a warning and is not modelled as an error). -/
def mkFeed (probe : String → Nat) (link name add_time last_updated : PyVal) :
    Except FeedErr Feed :=
  match link with
  | .str l =>
    match name with
    | .str n =>
      match add_time with
      | .dt t =>
        match last_updated with
        | .dt u =>
          if probe l = 410 then
            .error (.valueError ("The link " ++ l ++ " is gone (410). Please check if the link is correct."))
          else
            .ok ⟨l, n, t, u⟩
        | _ => .error (.typeError "last_updated must be a datetime.datetime")
      | _ => .error (.typeError "add_time must be a datetime.datetime")
    | _ => .error (.typeError "name must be a string")
  | _ => .error (.typeError "link must be a string")

/-- An element of the Python list `self._feeds`.  In a healthy registry every
element is a `Feed`; `junk` stands for an arbitrary unpickled object without a
`name` attribute, which `load` can deposit into `self._feeds` (accessing
`.name` on it raises `AttributeError`).  A non-list unpickled value, which
Python would also happily assign to `self._feeds`, is abstracted by a list
containing `junk`: in both cases the assignment succeeds and the subsequent
name-index rebuild raises. -/
inductive PickleObj where
  | feedObj (f : Feed)
  | junk
deriving DecidableEq, Repr

/-- The `.name` attribute access on a stored object: `some` for a `Feed`,
`none` (= `AttributeError`) for junk. -/
def objName : PickleObj → Option String
  | .feedObj f => some f.name
  | .junk => none

/-- The names of the `Feed` objects of a stored list, in list order. -/
def objNames (objs : List PickleObj) : List String :=
  objs.filterMap objName

/-- The list comprehension `[feed.name for feed in self._feeds]`: evaluates
left to right and raises (`none`) at the first object without a `name`. -/
def namesOfAll : List PickleObj → Option (List String)
  | [] => some []
  | o :: rest =>
    match objName o with
    | some n => (namesOfAll rest).map (fun ns => n :: ns)
    | none => none

/-- The registry state of `FeedSource.__init__`: the feed list `self._feeds`
and the parallel name index `self._feed_names`. -/
structure FeedSource where
  feeds : List PickleObj
  feed_names : List String
deriving DecidableEq, Repr

/-- A fresh registry (`FeedSource()`). -/
def FeedSource.empty : FeedSource := ⟨[], []⟩

/-- `FeedSource.add`: reject (no-op) if the name is already indexed, then
construct the `Feed` (which may raise via the probe; the registry is untouched
in that case), then append to both lists. -/
def FeedSource.add (probe : String → Nat) (fs : FeedSource)
    (link name : String) (now : Nat) : FeedSource :=
  if name ∈ fs.feed_names then fs
  else
    match mkFeed probe (.str link) (.str name) (.dt now) (.dt now) with
    | .error _ => fs
    | .ok f => ⟨fs.feeds ++ [.feedObj f], fs.feed_names ++ [name]⟩

/-- Result of the Python loop `for feed in self._feeds: if feed.name == name:`
over the stored objects: the first match (with the objects before and after
it), loop exhaustion, or an `AttributeError` raised by a junk object reached
before any match. -/
inductive ScanRes where
  | notFound
  | raised
  | found (pre : List PickleObj) (f : Feed) (rest : List PickleObj)
deriving DecidableEq, Repr

/-- The first stored feed whose `.name` equals `name`, scanning in list order
and raising at a junk object. -/
def scanFirst (name : String) : List PickleObj → ScanRes
  | [] => .notFound
  | .junk :: _ => .raised
  | .feedObj f :: rest =>
    if f.name = name then .found [] f rest
    else
      match scanFirst name rest with
      | .found pre g r => .found (.feedObj f :: pre) g r
      | res => res

/-- `FeedSource.remove`: pop the first feed with the given name from
`self._feeds`, then `self._feed_names.remove(name)`.  If the name is not in
the index the Python `list.remove` raises `ValueError` after the pop already
happened, so only `self._feeds` changes in that (unreachable in healthy
states) case. -/
def FeedSource.remove (fs : FeedSource) (name : String) : FeedSource :=
  match scanFirst name fs.feeds with
  | .notFound => fs
  | .raised => fs
  | .found pre _ rest =>
    if name ∈ fs.feed_names then
      ⟨pre ++ rest, fs.feed_names.erase name⟩
    else
      ⟨pre ++ rest, fs.feed_names⟩

/-- `FeedSource.change`, with the exact mutation order of the source: no-op if
both optional arguments are absent; find the feed; assign `feed.link` first
when `new_link` is supplied; only then check `new_name` against the index and
return early (keeping the link assignment!) on a conflict; otherwise assign
`feed.name`, remove the old name from the index and append the new one.
If the old name is missing from the index (unreachable in healthy states),
`list.remove` raises after `feed.name` was already assigned, so the index
keeps its prior value. -/
def FeedSource.change (fs : FeedSource) (name : String)
    (new_link new_name : Option String) : FeedSource :=
  if new_link = none ∧ new_name = none then fs
  else
    match scanFirst name fs.feeds with
    | .notFound => fs
    | .raised => fs
    | .found pre f rest =>
      let f1 : Feed :=
        match new_link with
        | some l => { f with link := l }
        | none => f
      match new_name with
      | none => { fs with feeds := pre ++ .feedObj f1 :: rest }
      | some n2 =>
        if n2 ∈ fs.feed_names then
          { fs with feeds := pre ++ .feedObj f1 :: rest }
        else if name ∈ fs.feed_names then
          ⟨pre ++ .feedObj { f1 with name := n2 } :: rest,
           fs.feed_names.erase name ++ [n2]⟩
        else
          ⟨pre ++ .feedObj { f1 with name := n2 } :: rest, fs.feed_names⟩

/-- Content of one file of the persistence layer: absent, undeserializable
(`pickle.load` raises), or a successfully deserialized list of objects. -/
inductive FileContent where
  | missing
  | corrupt
  | stored (objs : List PickleObj)
deriving DecidableEq, Repr

/-- `FeedSource.load`: `FileNotFoundError` and deserialization errors are
caught with no state change; on successful deserialization `self._feeds` is
assigned first and the name index is rebuilt afterwards, so if the rebuild
raises (junk in the data) the feed list keeps the corrupt value while the
index keeps its prior value. -/
def FeedSource.load (fs : FeedSource) (c : FileContent) : FeedSource :=
  match c with
  | .missing => fs
  | .corrupt => fs
  | .stored objs =>
    match namesOfAll objs with
    | some names => ⟨objs, names⟩
    | none => ⟨objs, fs.feed_names⟩

/-- `FeedSource.save`: serialize `self._feeds` to the given path (modelled as
updating the file-system map; pickling a list of feeds always succeeds). -/
def FeedSource.save (fs : FeedSource) (files : String → FileContent)
    (path : String) : String → FileContent :=
  fun p => if p = path then .stored fs.feeds else files p

/-- One registry operation of the spec's FeedRegistry interface. -/
inductive Op where
  | add (link name : String) (now : Nat)
  | remove (name : String)
  | change (name : String) (new_link new_name : Option String)
  | save (path : String)
  | load (path : String)

/-- A registry together with the file system it persists to. -/
structure World where
  reg : FeedSource
  files : String → FileContent

/-- Effect of one operation on registry and file system. -/
def step (probe : String → Nat) (w : World) : Op → World
  | .add l n t => { w with reg := w.reg.add probe l n t }
  | .remove n => { w with reg := w.reg.remove n }
  | .change n nl nn => { w with reg := w.reg.change n nl nn }
  | .save p => { w with files := w.reg.save w.files p }
  | .load p => { w with reg := w.reg.load (w.files p) }

/-- Run a sequence of registry operations. -/
def run (probe : String → Nat) (w : World) (ops : List Op) : World :=
  ops.foldl (step probe) w

/-- Number of stored feeds carrying a given name. -/
def feedCount (objs : List PickleObj) (n : String) : Nat :=
  (objs.filter (fun o => objName o = some n)).length

/-- The 1:1 correspondence between the name index and the feed collection, as
the spec states it: every indexed name names exactly one stored feed, and
every stored feed's name occurs exactly once in the index. -/
def ClaimInv (fs : FeedSource) : Prop :=
  (∀ n ∈ fs.feed_names, feedCount fs.feeds n = 1) ∧
  (∀ o ∈ fs.feeds, ∀ n, objName o = some n → fs.feed_names.count n = 1)

/-- The inductive strengthening actually maintained by the code on healthy
states: no junk in the feed list, the index is a permutation of the stored
feed names, and the index has no duplicates. -/
def StrongInv (fs : FeedSource) : Prop :=
  (∀ o ∈ fs.feeds, (objName o).isSome) ∧
  (objNames fs.feeds).Perm fs.feed_names ∧
  fs.feed_names.Nodup

/-- A file content that cannot break the registry: absent, failing at
deserialization, or a junk-free list of feeds with pairwise distinct names
(exactly what `save` writes from a healthy registry). -/
def GoodContent : FileContent → Prop
  | .missing => True
  | .corrupt => True
  | .stored objs => (∀ o ∈ objs, (objName o).isSome) ∧ (objNames objs).Nodup

/-! ## Interest matcher (`feedclassifier.py`, `FeedClassifier.judge`) -/

/-- `PredictionLabel` of `feedclassifier.py` (the float score is modelled as a
rational; `judge` never reads it). -/
structure PredictionLabel where
  label : String
  score : Rat
deriving DecidableEq, Repr

/-- `PredictionResult` of `feedclassifier.py`: `top_labels` defaults to
`None`. -/
structure PredictionResult where
  title : String
  predicted_labels : List PredictionLabel
  top_labels : Option (List PredictionLabel) := none
deriving DecidableEq, Repr

/-- Modelled from the spec: the module `acafeed/abbr_table.py` (function
`arxiv_abbr`) imported by `feedclassifier.py` is not under `src/`.  The spec
describes it as a fixed mapping from short topic code to canonical full name
over a closed taxonomy, so it is modelled as an association list from codes to
full names, passed to `judge` explicitly. -/
def AbbrTable : Type := List (String × String)

/-- `abbr_table.values()`: the full names, in table order. -/
def tableValues (tbl : AbbrTable) : List String :=
  tbl.map (fun p => p.2)

/-- `abbr_table[code]`: dictionary lookup; `none` models `KeyError`. -/
def lookupVal (tbl : AbbrTable) (code : String) : Option String :=
  (tbl.find? (fun p => p.1 = code)).map (fun p => p.2)

/-- The errors `judge` can raise: `ValueError` for a specifier naming an
unknown topic, `AssertionError` for a result without `top_labels`, `KeyError`
for a top label absent from the table. -/
inductive JudgeErr where
  | invalidClass (cls : String)
  | missingTopLabels
  | unknownLabel (label : String)
deriving DecidableEq, Repr

/-- The three specifier buckets built by the parsing loop of `judge`. -/
structure ParsedClasses where
  or_classes : List String
  and_classes : List String
  not_classes : List String
deriving DecidableEq, Repr

/-- Python's `str.startswith`, expressed over the character list (equivalent
to `String.startsWith`, but reducible by the kernel). -/
def strStartsWith (s p : String) : Bool :=
  s.toList.take p.toList.length = p.toList

/-- The parsing loop of `judge`: dispatch each specifier on its leading
character, validate the stripped name against the table's full names, raise at
the first invalid name. -/
def parseClasses (tbl : AbbrTable) : List String → Except JudgeErr ParsedClasses
  | [] => .ok ⟨[], [], []⟩
  | cls :: rest =>
    if strStartsWith cls "+" then
      if cls.drop 1 ∈ tableValues tbl then
        match parseClasses tbl rest with
        | .error e => .error e
        | .ok p => .ok { p with and_classes := cls.drop 1 :: p.and_classes }
      else .error (.invalidClass (cls.drop 1))
    else if strStartsWith cls "-" then
      if cls.drop 1 ∈ tableValues tbl then
        match parseClasses tbl rest with
        | .error e => .error e
        | .ok p => .ok { p with not_classes := cls.drop 1 :: p.not_classes }
      else .error (.invalidClass (cls.drop 1))
    else
      if cls ∈ tableValues tbl then
        match parseClasses tbl rest with
        | .error e => .error e
        | .ok p => .ok { p with or_classes := cls :: p.or_classes }
      else .error (.invalidClass cls)

/-- The stripped name of a specifier (`cls[1:]` after a `+` or `-`). -/
def stripName (cls : String) : String :=
  if strStartsWith cls "+" then cls.drop 1
  else if strStartsWith cls "-" then cls.drop 1
  else cls

/-- The comprehension `[abbr_table[label.label] for label in result.top_labels]`:
left to right, raising `KeyError` at the first unknown label. -/
def mapLabels (tbl : AbbrTable) : List PredictionLabel → Except JudgeErr (List String)
  | [] => .ok []
  | l :: rest =>
    match lookupVal tbl l.label with
    | none => .error (.unknownLabel l.label)
    | some n =>
      match mapLabels tbl rest with
      | .error e => .error e
      | .ok ns => .ok (n :: ns)

/-- The per-result body of `judge`: assert `top_labels`, map the labels to full
names, then the NOT / AND / OR checks in source order. -/
def judgeOne (tbl : AbbrTable) (p : ParsedClasses) (r : PredictionResult) :
    Except JudgeErr Bool :=
  match r.top_labels with
  | none => .error .missingTopLabels
  | some tls =>
    match mapLabels tbl tls with
    | .error e => .error e
    | .ok names =>
      if p.not_classes.any (fun c => c ∈ names) then .ok false
      else if ¬ p.and_classes.all (fun c => c ∈ names) then .ok false
      else if p.or_classes ≠ [] then .ok (p.or_classes.any (fun c => c ∈ names))
      else .ok true

/-- The results loop of `judge`: the batch judgments in order; the first
raised error aborts the whole call and no list is returned. -/
def judgeResults (tbl : AbbrTable) (p : ParsedClasses) :
    List PredictionResult → Except JudgeErr (List Bool)
  | [] => .ok []
  | r :: rest =>
    match judgeOne tbl p r with
    | .error e => .error e
    | .ok b =>
      match judgeResults tbl p rest with
      | .error e => .error e
      | .ok bs => .ok (b :: bs)

/-- `FeedClassifier.judge`: parse and validate the specifiers, then judge each
result. -/
def judge (tbl : AbbrTable) (classes : List String)
    (results : List PredictionResult) : Except JudgeErr (List Bool) :=
  match parseClasses tbl classes with
  | .error e => .error e
  | .ok p => judgeResults tbl p results

/-- The judgment the spec describes, as a function of the three bucket name
sets and the mapped top-label names: `False` on any NOT hit, else `False` on
any missing AND name, else — when `or_set` is non-empty — whether some OR name
is present, else `True`. -/
def specJudgment (or_set and_set not_set names : List String) : Bool :=
  if ∃ n ∈ not_set, n ∈ names then false
  else if ∃ n ∈ and_set, n ∉ names then false
  else if or_set ≠ [] then decide (∃ n ∈ or_set, n ∈ names)
  else true

/-! ## Entry normalizer (`entry_parser.py`) -/

/-- Python's `\s` character class over ASCII (`re` whitespace). -/
def pyIsSpace (c : Char) : Bool :=
  c = ' ' ∨ c = '\t' ∨ c = '\n' ∨ c = '\r' ∨ c = '\x0B' ∨ c = '\x0C'

/-- Python's `\w` character class (ASCII fragment): letters, digits, `_`. -/
def isWordChar (c : Char) : Bool :=
  c.isAlphanum ∨ c = '_'

/-- Scanning helper for `re.sub(r"<.*?>", " ", text)`: after an opening `<`,
the remainder after the first `>`, failing at a newline (`.` does not match
newlines) or the end of input. -/
def findTagEnd : List Char → Option (List Char)
  | [] => none
  | c :: rest =>
    if c = '>' then some rest
    else if c = '\n' then none
    else findTagEnd rest

theorem findTagEnd_length : ∀ {l l' : List Char},
    findTagEnd l = some l' → l'.length < l.length := by
  intro l
  induction l with
  | nil => intro l' h; simp [findTagEnd] at h
  | cons c rest ih =>
    intro l' h
    simp only [findTagEnd] at h
    split at h
    · cases h
      simp
    · split at h
      · cases h
      · exact Nat.lt_trans (ih h) (by simp)

/-- `re.sub(r"<.*?>", " ", text)`: each lazily matched tag span is replaced by
one space; an unmatched `<` is kept and scanning resumes at the next
character. -/
def htmlSub : List Char → List Char
  | [] => []
  | c :: rest =>
    if c = '<' then
      match h : findTagEnd rest with
      | some rest2 => ' ' :: htmlSub rest2
      | none => c :: htmlSub rest
    else c :: htmlSub rest
termination_by l => l.length
decreasing_by
  · exact Nat.lt_trans (findTagEnd_length h) (by simp)
  · simp
  · simp

/-- Case-insensitive literal prefix match (ASCII lowering, as `re.IGNORECASE`
on the ASCII patterns in question): the remainder on success. -/
def startsWithCI : List Char → List Char → Option (List Char)
  | [], l => some l
  | _ :: _, [] => none
  | p :: ps, c :: cs =>
    if c.toLower = p.toLower then startsWithCI ps cs else none

theorem startsWithCI_length : ∀ {pat l l' : List Char},
    startsWithCI pat l = some l' → l'.length + pat.length = l.length := by
  intro pat
  induction pat with
  | nil =>
    intro l l' h
    simp only [startsWithCI, Option.some.injEq] at h
    simp [← h]
  | cons p ps ih =>
    intro l l' h
    match l with
    | [] => simp [startsWithCI] at h
    | c :: cs =>
      simp only [startsWithCI] at h
      split at h
      · have := ih h
        simp only [List.length_cons]
        omega
      · cases h

theorem List.length_dropWhile_le' (p : Char → Bool) (l : List Char) :
    (l.dropWhile p).length ≤ l.length :=
  (l.dropWhile_sublist p).length_le

/-- A maximal nonempty run of characters satisfying `p` (the greedy `\s+` or
`\w+`): the remainder on success. -/
def reqRun (p : Char → Bool) (l : List Char) : Option (List Char) :=
  if (l.takeWhile p).length = 0 then none else some (l.dropWhile p)

theorem reqRun_le {p : Char → Bool} {l l' : List Char}
    (h : reqRun p l = some l') : l'.length ≤ l.length := by
  unfold reqRun at h
  split at h
  · cases h
  · cases h
    exact List.length_dropWhile_le' p l

/-- The `\d{1,2}` piece followed (by the surrounding pattern) by whitespace:
with backtracking taken into account this matches exactly when the maximal
digit run has length 1 or 2. -/
def reqDigits12 (l : List Char) : Option (List Char) :=
  if (l.takeWhile Char.isDigit).length = 1 ∨ (l.takeWhile Char.isDigit).length = 2 then
    some (l.dropWhile Char.isDigit)
  else none

theorem reqDigits12_le {l l' : List Char}
    (h : reqDigits12 l = some l') : l'.length ≤ l.length := by
  unfold reqDigits12 at h
  split at h
  · cases h
    exact List.length_dropWhile_le' Char.isDigit l
  · cases h

/-- Exactly four digits (`\d{4}`): the remainder on success. -/
def reqD4 (l : List Char) : Option (List Char) :=
  if (l.take 4).length = 4 ∧ (l.take 4).all Char.isDigit then some (l.drop 4)
  else none

theorem reqD4_le {l l' : List Char} (h : reqD4 l = some l') :
    l'.length ≤ l.length := by
  unfold reqD4 at h
  split at h
  · cases h
    simp [List.length_drop]
  · cases h

/-- The date part `\s*\d{1,2}\s+\w+\s+\d{4}` of the "Published online"
pattern, matched greedily at the head of `l`: the remainder on success. -/
def matchDate (l : List Char) : Option (List Char) :=
  (reqDigits12 (l.dropWhile pyIsSpace)).bind fun l2 =>
  (reqRun pyIsSpace l2).bind fun l3 =>
  (reqRun isWordChar l3).bind fun l4 =>
  (reqRun pyIsSpace l4).bind fun l5 =>
  reqD4 l5

theorem matchDate_le {l l' : List Char} (h : matchDate l = some l') :
    l'.length ≤ l.length := by
  unfold matchDate at h
  rw [Option.bind_eq_some] at h
  obtain ⟨l2, h2, h⟩ := h
  rw [Option.bind_eq_some] at h
  obtain ⟨l3, h3, h⟩ := h
  rw [Option.bind_eq_some] at h
  obtain ⟨l4, h4, h⟩ := h
  rw [Option.bind_eq_some] at h
  obtain ⟨l5, h5, h⟩ := h
  have c1 := List.length_dropWhile_le' pyIsSpace l
  have c2 := reqDigits12_le h2
  have c3 := reqRun_le h3
  have c4 := reqRun_le h4
  have c5 := reqRun_le h5
  have c6 := reqD4_le h
  omega

/-- The literal part of the "Published online" pattern. -/
def pubOnlinePat : List Char := "Published online:".toList

/-- `re.sub(r"Published online:\s*\d{1,2}\s+\w+\s+\d{4}", "", text,
flags=re.IGNORECASE)`: matches are removed; on a failed attempt scanning
resumes at the next character. -/
def pubOnlineSub : List Char → List Char
  | [] => []
  | c :: rest =>
    match h : startsWithCI pubOnlinePat (c :: rest) with
    | some l1 =>
      match h2 : matchDate l1 with
      | some l2 => pubOnlineSub l2
      | none => c :: pubOnlineSub rest
    | none => c :: pubOnlineSub rest
termination_by l => l.length
decreasing_by
  · have hl := startsWithCI_length h
    have hp : pubOnlinePat.length = 17 := rfl
    have := matchDate_le h2
    simp only [List.length_cons] at hl ⊢
    omega
  · simp
  · simp

/-- The literal part of the DOI pattern. -/
def doiPat : List Char := "doi:".toList

/-- `re.sub(r"doi:\s*\S+", "", text, flags=re.IGNORECASE)`: after the literal
`doi:`, optional whitespace then a nonempty maximal non-whitespace token; the
whole match is removed; a failed attempt keeps the character and resumes at
the next position. -/
def doiSub : List Char → List Char
  | [] => []
  | c :: rest =>
    match h : startsWithCI doiPat (c :: rest) with
    | some l1 =>
      let l2 := l1.dropWhile pyIsSpace
      if (l2.takeWhile (fun ch => ¬ pyIsSpace ch)).length = 0 then
        c :: doiSub rest
      else
        doiSub (l2.dropWhile (fun ch => ¬ pyIsSpace ch))
    | none => c :: doiSub rest
termination_by l => l.length
decreasing_by
  · simp
  · have hl := startsWithCI_length h
    have hp : doiPat.length = 4 := rfl
    have hd1 := List.length_dropWhile_le' pyIsSpace l1
    have hd2 := List.length_dropWhile_le'
      (fun ch => ¬ pyIsSpace ch) (l1.dropWhile pyIsSpace)
    simp only [List.length_cons] at hl ⊢
    omega
  · simp

/-- `re.sub(r"\s{2,}", " ", text)`: a run of two or more whitespace characters
becomes a single space; a lone whitespace character is kept as it is. -/
def collapseWs : List Char → List Char
  | [] => []
  | c :: rest =>
    if pyIsSpace c then
      if (rest.takeWhile pyIsSpace).length = 0 then c :: collapseWs rest
      else ' ' :: collapseWs (rest.dropWhile pyIsSpace)
    else c :: collapseWs rest
termination_by l => l.length
decreasing_by
  · simp
  · have := List.length_dropWhile_le' pyIsSpace rest
    simp only [List.length_cons]
    omega
  · simp

/-- Python `str.strip()`: remove leading and trailing whitespace. -/
def stripEnds (l : List Char) : List Char :=
  ((l.dropWhile pyIsSpace).reverse.dropWhile pyIsSpace).reverse

/-- `clean_summary` of `entry_parser.py`: empty/falsy input short-circuits to
`""`; otherwise strip HTML tags, remove "Published online: day month year",
remove DOI tokens, collapse whitespace runs, and trim. -/
def clean_summary (raw_summary : String) : String :=
  if raw_summary = "" then ""
  else
    String.mk (stripEnds (collapseWs (doiSub (pubOnlineSub (htmlSub raw_summary.toList)))))

/-- One element of a raw entry's `authors` list (`a.get("name", "")`). -/
structure RawAuthor where
  name : Option String
deriving DecidableEq, Repr

/-- A raw feedparser entry, restricted to the fields `parse_entries` reads.
`none` models a missing key (or a `None` value); `some ""` a present empty
string. -/
structure RawEntry where
  title : Option String := none
  summary : Option String := none
  link : Option String := none
  authors : Option (List RawAuthor) := none
  author : Option String := none
  published : Option String := none
  updated : Option String := none
deriving DecidableEq, Repr

/-- A raw feed: its entry list and the feed-level `title` metadata. -/
structure RawFeed where
  entries : List RawEntry
  feedTitle : Option String := none
deriving DecidableEq, Repr

/-- `_safe_get` of `entry_parser.py`: the value unless it is missing, `None`
or `""`, in which case the default. -/
def safeGet (v : Option String) (dflt : String) : String :=
  match v with
  | none => dflt
  | some s => if s = "" then dflt else s

/-- `_safe_get` with default `None`: normalizes missing/`None`/`""` to
`none`. -/
def safeGetOpt (v : Option String) : Option String :=
  match v with
  | none => none
  | some s => if s = "" then none else some s

/-- `_parse_date` of `entry_parser.py`: falsy input gives `None`; otherwise
the external lenient parser, whose exceptions are caught to `None` (the oracle
`dateParse` returns `none` in exactly those cases). -/
def parseDate (dateParse : String → Option Nat) : Option String → Option Nat
  | none => none
  | some s => if s = "" then none else dateParse s

/-- `_parse_authors` of `entry_parser.py`: a present non-empty `authors` list
is mapped to trimmed names joined with `", "` (falling back to `"Unknown"`
when every name is empty); else a truthy `author` field; else `"Unknown"`. -/
def parseAuthors (e : RawEntry) : String :=
  match e.authors with
  | some (a :: as) =>
    let names := ((a :: as).map (fun a => (a.name.getD "").trim)).filter (fun n => n ≠ "")
    if names ≠ [] then String.intercalate ", " names else "Unknown"
  | _ =>
    match e.author with
    | some s => if s = "" then "Unknown" else s
    | none => "Unknown"

/-- The raw publication-date string chosen by `parse_entries`:
`_safe_get(item, "published", None) or _safe_get(item, "updated", None)`. -/
def pubRaw (item : RawEntry) : Option String :=
  (safeGetOpt item.published).orElse (fun _ => safeGetOpt item.updated)

/-- The normalized entry dictionary produced by `parse_entries`. -/
structure Entry where
  title : String
  summary : String
  link : String
  authors : String
  published : Option Nat
  source : String
  text_for_classification : String
deriving DecidableEq, Repr

/-- The loop body of `parse_entries` for one raw item. -/
def parseEntry (dateParse : String → Option Nat) (feedTitle : Option String)
    (item : RawEntry) : Entry :=
  let title := safeGet item.title "Untitled Paper"
  let cleaned := clean_summary (safeGet item.summary "")
  let summary := if cleaned = "" then "No abstract available" else cleaned
  { title := title
    summary := summary
    link := safeGet item.link "N/A"
    authors := parseAuthors item
    published := parseDate dateParse (pubRaw item)
    source := feedTitle.getD "Unknown Source"
    text_for_classification :=
      String.intercalate " " ([title, summary].filter (fun part => part ≠ "")) }

/-- `parse_entries` of `entry_parser.py`: normalize every raw entry of the
feed, in order. -/
def parse_entries (dateParse : String → Option Nat) (feed : RawFeed) :
    List Entry :=
  feed.entries.map (parseEntry dateParse feed.feedTitle)

/-! ## Theorems -/

theorem scanFirst_eq_found {name : String} {pre rest : List PickleObj} {f : Feed}
    (hf : f.name = name)
    (hpre : ∀ o ∈ pre, ∃ g, o = PickleObj.feedObj g ∧ g.name ≠ name) :
    scanFirst name (pre ++ .feedObj f :: rest) = .found pre f rest := by
  induction pre with
  | nil => simp [scanFirst, hf]
  | cons o os ih =>
    obtain ⟨g, rfl, hg⟩ := hpre o (by simp)
    have hrec := ih (fun o ho => hpre o (by simp [ho]))
    simp [scanFirst, hg, hrec]

/-- C1 counterexample: in a registry holding feeds `a` (link `la`) and `b`
(link `lb`), calling `change("a", new_link="nl", new_name="b")` does NOT leave
the registry untouched — `a`'s link is assigned before the duplicate-name
check rejects the rename. -/
theorem claim_C1_counterexample :
    (FeedSource.mk [.feedObj ⟨"la", "a", 0, 0⟩, .feedObj ⟨"lb", "b", 0, 0⟩] ["a", "b"]).change
        "a" (some "nl") (some "b")
      ≠ FeedSource.mk [.feedObj ⟨"la", "a", 0, 0⟩, .feedObj ⟨"lb", "b", 0, 0⟩] ["a", "b"] := by
  decide

/-- C1 (amended): renaming a feed to a name already present in the index
rejects the rename — the feed's name, every other feed, and the name index are
unchanged — but a `new_link` supplied in the same call has already been
assigned when the rejection happens, so the feed's link does change to
`new_link`. -/
theorem change_rename_conflict (fs : FeedSource) (pre rest : List PickleObj)
    (f : Feed) (nl : Option String) (n2 : String)
    (hfeeds : fs.feeds = pre ++ .feedObj f :: rest)
    (hpre : ∀ o ∈ pre, ∃ g, o = PickleObj.feedObj g ∧ g.name ≠ f.name)
    (hn2 : n2 ∈ fs.feed_names) (hne : n2 ≠ f.name) :
    fs.change f.name nl (some n2) =
      { fs with feeds := pre ++ .feedObj { f with link := nl.getD f.link } :: rest } := by
  have hscan : scanFirst f.name fs.feeds = .found pre f rest := by
    rw [hfeeds]; exact scanFirst_eq_found rfl hpre
  unfold FeedSource.change
  rw [if_neg (by simp)]
  rw [hscan]
  cases nl with
  | none => simp [hn2]
  | some l => simp [hn2]

/-- C1 witness: concrete instance of `change_rename_conflict` — the rename to
`b` is rejected, the index is unchanged, but the link of `a` became `nl`. -/
theorem claim_C1_witness :
    (FeedSource.mk [.feedObj ⟨"la", "a", 0, 0⟩, .feedObj ⟨"lb", "b", 0, 0⟩] ["a", "b"]).change
        "a" (some "nl") (some "b")
      = FeedSource.mk [.feedObj ⟨"nl", "a", 0, 0⟩, .feedObj ⟨"lb", "b", 0, 0⟩] ["a", "b"] := by
  have h := change_rename_conflict
    (FeedSource.mk [.feedObj ⟨"la", "a", 0, 0⟩, .feedObj ⟨"lb", "b", 0, 0⟩] ["a", "b"])
    [] [.feedObj ⟨"lb", "b", 0, 0⟩] ⟨"la", "a", 0, 0⟩ (some "nl") "b"
    rfl (by intro o ho; cases ho) (by decide) (by decide)
  exact h

/-- C2 counterexample: loading a file whose deserialization succeeds but whose
data is not a list of feeds (here: one object without a `name` attribute) does
NOT leave the registry unchanged — `self._feeds` was already assigned when the
name-index rebuild raised. -/
theorem claim_C2_counterexample :
    (FeedSource.mk [.feedObj ⟨"l", "a", 0, 0⟩] ["a"]).load (.stored [.junk])
      ≠ FeedSource.mk [.feedObj ⟨"l", "a", 0, 0⟩] ["a"] := by
  decide

/-- C2 (amended): `load` on a missing file or on a file whose deserialization
itself raises leaves the registry (feed collection and name index) unchanged;
but when deserialization succeeds and the subsequent name-index rebuild raises,
the feed collection has already been replaced by the deserialized data while
the name index keeps its prior value. -/
theorem load_failure_modes (fs : FeedSource) :
    fs.load .missing = fs ∧ fs.load .corrupt = fs ∧
    ∀ objs, namesOfAll objs = none →
      (fs.load (.stored objs)).feeds = objs ∧
      (fs.load (.stored objs)).feed_names = fs.feed_names := by
  refine ⟨rfl, rfl, ?_⟩
  intro objs h
  simp [FeedSource.load, h]

/-- C2 witness: concrete instance of `load_failure_modes` — a corrupt
(undeserializable) file leaves the registry unchanged, and a deserializable
file holding a nameless object replaces the feed list while keeping the old
index. -/
theorem claim_C2_witness :
    (FeedSource.mk [.feedObj ⟨"l", "a", 0, 0⟩] ["a"]).load .corrupt
        = FeedSource.mk [.feedObj ⟨"l", "a", 0, 0⟩] ["a"] ∧
    ((FeedSource.mk [.feedObj ⟨"l", "a", 0, 0⟩] ["a"]).load (.stored [.junk])).feeds
        = [.junk] ∧
    ((FeedSource.mk [.feedObj ⟨"l", "a", 0, 0⟩] ["a"]).load (.stored [.junk])).feed_names
        = ["a"] := by
  have h := load_failure_modes (FeedSource.mk [.feedObj ⟨"l", "a", 0, 0⟩] ["a"])
  exact ⟨h.2.1, (h.2.2 [.junk] rfl).1, (h.2.2 [.junk] rfl).2⟩

/-- C7 counterexample: `Feed` construction rejects arguments of the correct
types (strings and datetimes) with a `ValueError` when the link probe reports
HTTP 410, so a type mismatch is not the only rejection condition. -/
theorem claim_C7_counterexample :
    mkFeed (fun _ => 410) (.str "http://x") (.str "Feed") (.dt 0) (.dt 0)
      = .error (.valueError
          "The link http://x is gone (410). Please check if the link is correct.") := by
  rfl

/-- C7 (amended): `Feed` construction succeeds exactly when `link` and `name`
are strings, both timestamps are datetimes, and the probe of the link does not
report HTTP 410; in particular the empty string is accepted as a value for
`link` and `name` whenever the probe of `""` is not 410, and a type mismatch
always rejects, but a 410 probe is an additional rejection condition. -/
theorem mkFeed_ok_iff (probe : String → Nat) (l n t u : PyVal) :
    (∃ f, mkFeed probe l n t u = .ok f) ↔
      ((∃ s, l = .str s) ∧ (∃ s, n = .str s) ∧ (∃ x, t = .dt x) ∧ (∃ x, u = .dt x) ∧
       ∀ s, l = .str s → probe s ≠ 410) := by
  constructor
  · rintro ⟨f, hf⟩
    cases l with
    | str ls =>
      cases n with
      | str ns =>
        cases t with
        | dt ts =>
          cases u with
          | dt us =>
            refine ⟨⟨ls, rfl⟩, ⟨ns, rfl⟩, ⟨ts, rfl⟩, ⟨us, rfl⟩, ?_⟩
            rintro s hs h410
            cases hs
            simp [mkFeed, h410] at hf
          | int _ => simp [mkFeed] at hf
          | str _ => simp [mkFeed] at hf
          | noneV => simp [mkFeed] at hf
        | int _ => simp [mkFeed] at hf
        | str _ => simp [mkFeed] at hf
        | noneV => simp [mkFeed] at hf
      | int _ => simp [mkFeed] at hf
      | dt _ => simp [mkFeed] at hf
      | noneV => simp [mkFeed] at hf
    | int _ => simp [mkFeed] at hf
    | dt _ => simp [mkFeed] at hf
    | noneV => simp [mkFeed] at hf
  · rintro ⟨⟨ls, rfl⟩, ⟨ns, rfl⟩, ⟨ts, rfl⟩, ⟨us, rfl⟩, h410⟩
    exact ⟨⟨ls, ns, ts, us⟩, by simp [mkFeed, h410 ls rfl]⟩

/-- C8: save followed by load (into a fresh or existing registry `r2`) yields
a registry whose feed list — hence the set of feeds with all four fields —
equals the saved one exactly. -/
theorem save_load_roundtrip (probe : String → Nat) (fs r2 : FeedSource)
    (files : String → FileContent) (p : String) :
    ((step probe
        { reg := r2, files := (step probe { reg := fs, files := files } (.save p)).files }
        (.load p)).reg).feeds = fs.feeds := by
  show (r2.load (fs.save files p p)).feeds = fs.feeds
  unfold FeedSource.save
  rw [if_pos rfl]
  unfold FeedSource.load
  cases h : namesOfAll fs.feeds <;> simp [h]

theorem judgeOne_eq_specJudgment (tbl : AbbrTable) (p : ParsedClasses) (r : PredictionResult)
    (tls : List PredictionLabel) (names : List String)
    (htl : r.top_labels = some tls) (hm : mapLabels tbl tls = .ok names) :
    judgeOne tbl p r = .ok (specJudgment p.or_classes p.and_classes p.not_classes names) := by
  have hbool : (p.or_classes.any fun c => decide (c ∈ names))
      = decide (∃ n ∈ p.or_classes, n ∈ names) := by
    by_cases h : ∃ n ∈ p.or_classes, n ∈ names
    · rw [decide_eq_true h, List.any_eq_true]
      obtain ⟨n, hn, hmem⟩ := h
      exact ⟨n, hn, by simpa using hmem⟩
    · rw [decide_eq_false h]
      rw [Bool.eq_false_iff]
      intro hb
      obtain ⟨n, hn, hd⟩ := List.any_eq_true.mp hb
      exact h ⟨n, hn, by simpa using hd⟩
  simp only [judgeOne, htl, hm, specJudgment]
  split_ifs with h1 h2 h3 h4 h5 h6 h7 h8 h9 <;>
    simp_all [List.any_eq_true, List.all_eq_true] <;>
    tauto

/-- C5: on a valid specifier list parsed into the three buckets, the judgment
of a result with `top_labels` present whose labels map to `names` is exactly
the spec's NOT then AND then OR cascade: `False` on a NOT hit, else `False` on
a missing AND name, else — when the OR bucket is non-empty — whether an OR
name occurs, else `True`. -/
theorem judge_single_semantics (tbl : AbbrTable) (classes : List String)
    (p : ParsedClasses) (r : PredictionResult)
    (tls : List PredictionLabel) (names : List String)
    (hp : parseClasses tbl classes = .ok p)
    (htl : r.top_labels = some tls) (hm : mapLabels tbl tls = .ok names) :
    judge tbl classes [r]
      = .ok [specJudgment p.or_classes p.and_classes p.not_classes names] := by
  have h1 := judgeOne_eq_specJudgment tbl p r tls names htl hm
  simp [judge, hp, judgeResults, h1]

/-- C5 witness: specifiers `["+Computer Vision", "-Biology"]` on a result with
top labels mapping to Computer Vision and Robotics give `True`. -/
theorem claim_C5_witness :
    judge [("cs.CV", "Computer Vision"), ("q-bio", "Biology"), ("cs.RO", "Robotics")]
        ["+Computer Vision", "-Biology"]
        [⟨"t", [], some [⟨"cs.CV", 0⟩, ⟨"cs.RO", 0⟩]⟩]
      = .ok [true] := by
  have h := judge_single_semantics
    [("cs.CV", "Computer Vision"), ("q-bio", "Biology"), ("cs.RO", "Robotics")]
    ["+Computer Vision", "-Biology"]
    ⟨[], ["Computer Vision"], ["Biology"]⟩
    ⟨"t", [], some [⟨"cs.CV", 0⟩, ⟨"cs.RO", 0⟩]⟩
    [⟨"cs.CV", 0⟩, ⟨"cs.RO", 0⟩]
    ["Computer Vision", "Robotics"]
    rfl rfl rfl
  exact h.trans (by rfl)

theorem judgeResults_missing (tbl : AbbrTable) (p : ParsedClasses) :
    ∀ results : List PredictionResult, (∃ r ∈ results, r.top_labels = none) →
      (∃ e, judgeResults tbl p results = .error e) ∧
      ((∀ r ∈ results, ∀ tls, r.top_labels = some tls → ∃ ns, mapLabels tbl tls = .ok ns) →
        judgeResults tbl p results = .error .missingTopLabels) := by
  intro results
  induction results with
  | nil => intro hmiss; simp at hmiss
  | cons r rest ih =>
    intro hmiss
    cases hr : r.top_labels with
    | none =>
      have h1 : judgeOne tbl p r = .error .missingTopLabels := by
        simp [judgeOne, hr]
      exact ⟨⟨.missingTopLabels, by simp [judgeResults, h1]⟩,
             fun _ => by simp [judgeResults, h1]⟩
    | some tls =>
      have hmiss' : ∃ x ∈ rest, x.top_labels = none := by
        obtain ⟨r', hr', hn⟩ := hmiss
        rcases List.mem_cons.mp hr' with h | h
        · subst h; rw [hr] at hn; cases hn
        · exact ⟨r', h, hn⟩
      have ih' := ih hmiss'
      refine ⟨?_, ?_⟩
      · obtain ⟨e, he⟩ := ih'.1
        cases h1 : judgeOne tbl p r with
        | error e2 => exact ⟨e2, by simp [judgeResults, h1]⟩
        | ok b => exact ⟨e, by simp [judgeResults, h1, he]⟩
      · intro hall
        obtain ⟨ns, hns⟩ := hall r (by simp) tls hr
        have h1 := judgeOne_eq_specJudgment tbl p r tls ns hr hns
        have h2 := ih'.2 (fun x hx tls2 htls2 => hall x (by simp [hx]) tls2 htls2)
        simp [judgeResults, h1, h2]

/-- C4: on a valid specifier list, a batch containing a result without
`top_labels` makes the whole `judge` call fail — no boolean list is returned,
and the absence is never turned into a `False` entry — and whenever no earlier
table-lookup failure pre-empts the assertion the error is precisely the
`top_labels` contract violation. -/
theorem judge_missing_top_labels (tbl : AbbrTable) (classes : List String)
    (p : ParsedClasses) (results : List PredictionResult)
    (hp : parseClasses tbl classes = .ok p)
    (hmiss : ∃ r ∈ results, r.top_labels = none) :
    (∃ e, judge tbl classes results = .error e) ∧
    ((∀ r ∈ results, ∀ tls, r.top_labels = some tls → ∃ ns, mapLabels tbl tls = .ok ns) →
      judge tbl classes results = .error .missingTopLabels) := by
  have hj : judge tbl classes results = judgeResults tbl p results := by
    simp [judge, hp]
  rw [hj]
  exact judgeResults_missing tbl p results hmiss

/-- C4 witness: a batch whose second result lacks `top_labels` makes the call
fail with the contract-violation error. -/
theorem claim_C4_witness :
    judge [("cs.CV", "Computer Vision")] ["Computer Vision"]
        [⟨"t", [], some [⟨"cs.CV", 0⟩]⟩, ⟨"u", [], none⟩]
      = .error .missingTopLabels := by
  have h := judge_missing_top_labels [("cs.CV", "Computer Vision")] ["Computer Vision"]
    ⟨["Computer Vision"], [], []⟩
    [⟨"t", [], some [⟨"cs.CV", 0⟩]⟩, ⟨"u", [], none⟩]
    rfl ⟨⟨"u", [], none⟩, by simp, rfl⟩
  refine h.2 ?_
  intro r hr tls htls
  rcases List.mem_cons.mp hr with h1 | h1
  · subst h1
    cases htls
    exact ⟨["Computer Vision"], rfl⟩
  · rcases List.mem_cons.mp h1 with h2 | h2
    · subst h2; cases htls
    · cases h2

theorem parseClasses_invalid (tbl : AbbrTable) (pre : List String) (cls : String)
    (rest : List String)
    (hpre : ∀ c ∈ pre, stripName c ∈ tableValues tbl)
    (hbad : stripName cls ∉ tableValues tbl) :
    parseClasses tbl (pre ++ cls :: rest) = .error (.invalidClass (stripName cls)) := by
  induction pre with
  | nil =>
    simp only [List.nil_append]
    cases h1 : strStartsWith cls "+" with
    | true =>
      simp only [stripName, h1, if_true] at hbad ⊢
      simp [parseClasses, h1, hbad]
    | false =>
      cases h2 : strStartsWith cls "-" with
      | true =>
        simp [stripName, h1, h2] at hbad
        simp [parseClasses, stripName, h1, h2, hbad]
      | false =>
        simp [stripName, h1, h2] at hbad
        simp [parseClasses, stripName, h1, h2, hbad]
  | cons c cs ih =>
    have hc := hpre c (by simp)
    have ih' := ih (fun x hx => hpre x (by simp [hx]))
    simp only [List.cons_append]
    cases h1 : strStartsWith c "+" with
    | true =>
      simp [stripName, h1] at hc
      simp [parseClasses, h1, hc, ih']
    | false =>
      cases h2 : strStartsWith c "-" with
      | true =>
        simp [stripName, h1, h2] at hc
        simp [parseClasses, h1, h2, hc, ih']
      | false =>
        simp [stripName, h1, h2] at hc
        simp [parseClasses, h1, h2, hc, ih']

/-- C6: when the specifier list contains an invalid name (stripped name not
among the table's full names) and every specifier before it is valid, the
whole `judge` call fails with an error identifying that specifier's stripped
name — for every batch of results, so no result is evaluated into a partial
list. -/
theorem judge_invalid_specifier (tbl : AbbrTable) (results : List PredictionResult)
    (pre : List String) (cls : String) (rest : List String)
    (hpre : ∀ c ∈ pre, stripName c ∈ tableValues tbl)
    (hbad : stripName cls ∉ tableValues tbl) :
    judge tbl (pre ++ cls :: rest) results = .error (.invalidClass (stripName cls)) := by
  simp [judge, parseClasses_invalid tbl pre cls rest hpre hbad]

/-- C6 witness: the specifier `+Bogus` (after a valid one) fails the whole
call with the error naming `Bogus`, on a non-empty batch. -/
theorem claim_C6_witness :
    judge [("cs.CV", "Computer Vision")] ["Computer Vision", "+Bogus", "X"]
        [⟨"t", [], some [⟨"cs.CV", 0⟩]⟩]
      = .error (.invalidClass "Bogus") := by
  have h := judge_invalid_specifier [("cs.CV", "Computer Vision")]
    [⟨"t", [], some [⟨"cs.CV", 0⟩]⟩]
    ["Computer Vision"] "+Bogus" ["X"]
    (by intro c hc
        rcases List.mem_singleton.mp hc with rfl
        decide)
    (by decide)
  exact h.trans (by rfl)

theorem mapLabels_unknown (tbl : AbbrTable) (tpre : List PredictionLabel)
    (pl : PredictionLabel) (trest : List PredictionLabel)
    (htpre : ∀ q ∈ tpre, (lookupVal tbl q.label).isSome)
    (hunk : lookupVal tbl pl.label = none) :
    mapLabels tbl (tpre ++ pl :: trest) = .error (.unknownLabel pl.label) := by
  induction tpre with
  | nil => simp [mapLabels, hunk]
  | cons q qs ih =>
    obtain ⟨n, hn⟩ := Option.isSome_iff_exists.mp (htpre q (by simp))
    have ih' := ih (fun x hx => htpre x (by simp [hx]))
    simp [mapLabels, hn, ih']

/-- C10: on a valid specifier list, a batch in which some result's
`top_labels` contains a label that is not a key of the abbreviation table
(while the results before it judge cleanly) makes the whole `judge` call fail
with the failed-lookup error naming that label, instead of treating it as a
non-match and returning a boolean for that result. -/
theorem judge_unknown_label (tbl : AbbrTable) (classes : List String)
    (p : ParsedClasses) (rpre : List PredictionResult) (r : PredictionResult)
    (rrest : List PredictionResult) (tpre : List PredictionLabel)
    (pl : PredictionLabel) (trest : List PredictionLabel)
    (hp : parseClasses tbl classes = .ok p)
    (hrpre : ∀ x ∈ rpre, ∃ tls ns, x.top_labels = some tls ∧ mapLabels tbl tls = .ok ns)
    (htl : r.top_labels = some (tpre ++ pl :: trest))
    (htpre : ∀ q ∈ tpre, (lookupVal tbl q.label).isSome)
    (hunk : lookupVal tbl pl.label = none) :
    judge tbl classes (rpre ++ r :: rrest) = .error (.unknownLabel pl.label) := by
  have hr : judgeOne tbl p r = .error (.unknownLabel pl.label) := by
    simp [judgeOne, htl, mapLabels_unknown tbl tpre pl trest htpre hunk]
  have key : ∀ xs : List PredictionResult,
      (∀ x ∈ xs, ∃ tls ns, x.top_labels = some tls ∧ mapLabels tbl tls = .ok ns) →
      judgeResults tbl p (xs ++ r :: rrest) = .error (.unknownLabel pl.label) := by
    intro xs
    induction xs with
    | nil => intro _; simp [judgeResults, hr]
    | cons x xs2 ih =>
      intro hxs
      obtain ⟨tls2, ns2, htls2, hns2⟩ := hxs x (by simp)
      have h1 := judgeOne_eq_specJudgment tbl p x tls2 ns2 htls2 hns2
      have ih' := ih (fun y hy => hxs y (by simp [hy]))
      simp [judgeResults, h1, ih']
  have hj : judge tbl classes (rpre ++ r :: rrest)
      = judgeResults tbl p (rpre ++ r :: rrest) := by
    simp [judge, hp]
  rw [hj]
  exact key rpre hrpre

/-- C10 witness: a result whose top label `zz` is not a table key fails the
call with the lookup error naming `zz`. -/
theorem claim_C10_witness :
    judge [("cs.CV", "Computer Vision")] ["Computer Vision"]
        [⟨"t", [], some [⟨"cs.CV", 0⟩]⟩, ⟨"u", [], some [⟨"cs.CV", 0⟩, ⟨"zz", 0⟩]⟩]
      = .error (.unknownLabel "zz") := by
  have h := judge_unknown_label [("cs.CV", "Computer Vision")] ["Computer Vision"]
    ⟨["Computer Vision"], [], []⟩
    [⟨"t", [], some [⟨"cs.CV", 0⟩]⟩] ⟨"u", [], some [⟨"cs.CV", 0⟩, ⟨"zz", 0⟩]⟩ []
    [⟨"cs.CV", 0⟩] ⟨"zz", 0⟩ []
    rfl
    (by intro x hx
        rcases List.mem_singleton.mp hx with rfl
        exact ⟨[⟨"cs.CV", 0⟩], ["Computer Vision"], rfl, rfl⟩)
    rfl
    (by intro q hq
        rcases List.mem_singleton.mp hq with rfl
        decide)
    rfl
  exact h


/-- C9: the normalizer is total over the raw-entry shapes of the model and
resolves every degenerate shape to the spec's defaults: one output entry per
raw entry, a missing or empty raw title becomes `"Untitled Paper"`, a summary
whose cleaned form is empty becomes `"No abstract available"`, absent author
information becomes `"Unknown"`, and an absent or unparseable date leaves
`published` unset instead of raising. -/
theorem parse_entries_defaults (dateParse : String → Option Nat) (feed : RawFeed) :
    (parse_entries dateParse feed).length = feed.entries.length ∧
    ∀ item ∈ feed.entries,
      ((item.title = none ∨ item.title = some "") →
        (parseEntry dateParse feed.feedTitle item).title = "Untitled Paper") ∧
      (clean_summary (safeGet item.summary "") = "" →
        (parseEntry dateParse feed.feedTitle item).summary = "No abstract available") ∧
      (((item.authors = none ∨ item.authors = some []) ∧
        (item.author = none ∨ item.author = some "")) →
        (parseEntry dateParse feed.feedTitle item).authors = "Unknown") ∧
      (pubRaw item = none →
        (parseEntry dateParse feed.feedTitle item).published = none) ∧
      (∀ s, pubRaw item = some s → dateParse s = none →
        (parseEntry dateParse feed.feedTitle item).published = none) := by
  refine ⟨by simp [parse_entries], ?_⟩
  intro item _
  refine ⟨?_, ?_, ?_, ?_, ?_⟩
  · rintro (h | h) <;> simp [parseEntry, safeGet, h]
  · intro hcl
    simp [parseEntry, hcl]
  · rintro ⟨hA, hau⟩
    rcases hA with hA | hA <;> rcases hau with hau | hau <;>
      simp [parseEntry, parseAuthors, hA, hau]
  · intro hp
    simp [parseEntry, parseDate, hp]
  · intro s hp hd
    simp only [parseEntry, parseDate, hp]
    split <;> simp [hd]

/-- C9 witness: the fully degenerate raw entry (every field missing) is
normalized without failure into all four defaults. -/
theorem claim_C9_witness :
    (parseEntry (fun _ => none) none {}).title = "Untitled Paper" ∧
    (parseEntry (fun _ => none) none {}).summary = "No abstract available" ∧
    (parseEntry (fun _ => none) none {}).authors = "Unknown" ∧
    (parseEntry (fun _ => none) none {}).published = none := by
  have h := (parse_entries_defaults (fun _ => none) ⟨[{}], none⟩).2 {} (by simp)
  exact ⟨h.1 (Or.inl rfl), h.2.1 (by rfl), h.2.2.1 ⟨Or.inl rfl, Or.inl rfl⟩,
         h.2.2.2.1 rfl⟩


/-- C3 counterexample: loading an externally produced file that deserializes
to two feeds with the same name succeeds (error-free) and leaves the name
index and the feed collection out of 1:1 correspondence, so the invariant is
not enforced across all operations. -/
theorem claim_C3_counterexample :
    ¬ ClaimInv (run (fun _ => 0)
      ⟨FeedSource.empty,
       fun _ => .stored [.feedObj ⟨"l", "a", 0, 0⟩, .feedObj ⟨"m", "a", 1, 1⟩]⟩
      [.load "p"]).reg := by
  intro h
  have hm : "a" ∈ (run (fun _ => 0)
      ⟨FeedSource.empty,
       fun _ => .stored [.feedObj ⟨"l", "a", 0, 0⟩, .feedObj ⟨"m", "a", 1, 1⟩]⟩
      [.load "p"]).reg.feed_names := by decide
  exact absurd (h.1 "a" hm) (by decide)

/-- A registry paired with a file system in which every file is harmless. -/
def WorldInv (w : World) : Prop :=
  StrongInv w.reg ∧ ∀ p, GoodContent (w.files p)

theorem objNames_append (l1 l2 : List PickleObj) :
    objNames (l1 ++ l2) = objNames l1 ++ objNames l2 := by
  simp [objNames]

theorem scanFirst_shape {name : String} {l pre rest : List PickleObj} {f : Feed}
    (h : scanFirst name l = .found pre f rest) :
    l = pre ++ .feedObj f :: rest ∧ f.name = name ∧
    ∀ o ∈ pre, ∃ g, o = PickleObj.feedObj g ∧ g.name ≠ name := by
  induction l generalizing pre f rest with
  | nil => simp [scanFirst] at h
  | cons o os ih =>
    cases o with
    | junk => simp [scanFirst] at h
    | feedObj g =>
      by_cases hg : g.name = name
      · simp only [scanFirst, if_pos hg] at h
        cases h
        exact ⟨rfl, hg, by simp⟩
      · simp only [scanFirst, if_neg hg] at h
        cases hs : scanFirst name os with
        | notFound => rw [hs] at h; cases h
        | raised => rw [hs] at h; cases h
        | found pre2 g2 r2 =>
          rw [hs] at h
          cases h
          obtain ⟨h1, h2, h3⟩ := ih hs
          refine ⟨by rw [h1]; simp, h2, ?_⟩
          intro o ho
          rcases List.mem_cons.mp ho with rfl | ho2
          · exact ⟨g, rfl, hg⟩
          · exact h3 o ho2

theorem namesOfAll_eq (objs : List PickleObj)
    (h : ∀ o ∈ objs, (objName o).isSome) :
    namesOfAll objs = some (objNames objs) := by
  induction objs with
  | nil => rfl
  | cons o os ih =>
    obtain ⟨n, hn⟩ := Option.isSome_iff_exists.mp (h o (by simp))
    have ih' := ih (fun x hx => h x (by simp [hx]))
    simp [namesOfAll, objNames, List.filterMap_cons, hn, ih']

theorem feedCount_eq_count (objs : List PickleObj) (n : String) :
    feedCount objs n = (objNames objs).count n := by
  induction objs with
  | nil => rfl
  | cons o os ih =>
    cases o with
    | junk => simp [feedCount, objNames, objName, List.filter_cons, List.filterMap_cons] at ih ⊢
              exact ih
    | feedObj g =>
      by_cases h : g.name = n <;>
        simp [feedCount, objNames, objName, List.filter_cons, List.filterMap_cons,
              List.count_cons, h] at ih ⊢ <;>
        omega

theorem strongInv_claimInv (fs : FeedSource) (h : StrongInv fs) : ClaimInv fs := by
  obtain ⟨hns, hperm, hnd⟩ := h
  constructor
  · intro n hn
    rw [feedCount_eq_count, hperm.count_eq]
    exact List.count_eq_one_of_mem hnd hn
  · intro o ho n hon
    have hmem : n ∈ objNames fs.feeds := by
      rw [objNames, List.mem_filterMap]
      exact ⟨o, ho, hon⟩
    exact List.count_eq_one_of_mem hnd (hperm.mem_iff.mp hmem)

theorem add_inv (probe : String → Nat) (fs : FeedSource) (link name : String)
    (now : Nat) (h : StrongInv fs) : StrongInv (fs.add probe link name now) := by
  unfold FeedSource.add
  by_cases hmem : name ∈ fs.feed_names
  · rw [if_pos hmem]; exact h
  · rw [if_neg hmem]
    by_cases h410 : probe link = 410
    · simp only [mkFeed, h410, if_true]
      exact h
    · simp only [mkFeed, h410, if_false]
      obtain ⟨hns, hperm, hnd⟩ := h
      refine ⟨?_, ?_, ?_⟩
      · intro o ho
        rcases List.mem_append.mp ho with ho1 | ho1
        · exact hns o ho1
        · rcases List.mem_singleton.mp ho1 with rfl
          simp [objName]
      · rw [objNames_append]
        have : objNames [PickleObj.feedObj ⟨link, name, now, now⟩] = [name] := by
          simp [objNames, objName]
        rw [this]
        exact hperm.append_right [name]
      · rw [List.nodup_append]
        exact ⟨hnd, List.nodup_singleton name, fun a ha hb => hmem (by
          rcases List.mem_singleton.mp hb with rfl; exact ha)⟩

theorem pre_not_mem {name : String} {pre : List PickleObj}
    (hpre : ∀ o ∈ pre, ∃ g, o = PickleObj.feedObj g ∧ g.name ≠ name) :
    name ∉ objNames pre := by
  intro hmem
  rw [objNames, List.mem_filterMap] at hmem
  obtain ⟨o, ho, hon⟩ := hmem
  obtain ⟨g, rfl, hg⟩ := hpre o ho
  simp [objName] at hon
  exact hg hon

theorem found_name_mem {name : String} {pre rest : List PickleObj} {f : Feed}
    (fs : FeedSource) (hl : fs.feeds = pre ++ .feedObj f :: rest)
    (hfn : f.name = name) (hperm : (objNames fs.feeds).Perm fs.feed_names) :
    name ∈ fs.feed_names := by
  apply hperm.mem_iff.mp
  rw [hl, objNames_append]
  apply List.mem_append_right
  simp [objNames, List.filterMap_cons, objName, hfn]

theorem erase_key {name : String} {pre rest : List PickleObj} {f : Feed}
    (hfn : f.name = name)
    (hpre : ∀ o ∈ pre, ∃ g, o = PickleObj.feedObj g ∧ g.name ≠ name) :
    objNames pre ++ objNames rest
      = (objNames (pre ++ .feedObj f :: rest)).erase name := by
  rw [objNames_append]
  have : objNames (PickleObj.feedObj f :: rest) = name :: objNames rest := by
    simp [objNames, List.filterMap_cons, objName, hfn]
  rw [this, List.erase_append_right _ (pre_not_mem hpre), List.erase_cons_head]

theorem remove_inv (fs : FeedSource) (name : String) (h : StrongInv fs) :
    StrongInv (fs.remove name) := by
  unfold FeedSource.remove
  cases hscan : scanFirst name fs.feeds with
  | notFound => exact h
  | raised => exact h
  | found pre f rest =>
    dsimp only
    obtain ⟨hl, hfn, hpre⟩ := scanFirst_shape hscan
    obtain ⟨hns, hperm, hnd⟩ := h
    rw [if_pos (found_name_mem fs hl hfn hperm)]
    refine ⟨?_, ?_, ?_⟩
    · intro o ho
      apply hns
      rw [hl]
      rcases List.mem_append.mp ho with h1 | h1
      · exact List.mem_append_left _ h1
      · exact List.mem_append_right _ (List.mem_cons_of_mem _ h1)
    · rw [objNames_append, erase_key hfn hpre, ← hl]
      exact hperm.erase name
    · exact hnd.erase name

theorem change_keep_inv {name : String} (fs : FeedSource) (pre rest : List PickleObj)
    (f g : Feed) (hl : fs.feeds = pre ++ .feedObj f :: rest)
    (hfn : f.name = name) (hg : g.name = name) (h : StrongInv fs) :
    StrongInv ⟨pre ++ .feedObj g :: rest, fs.feed_names⟩ := by
  obtain ⟨hns, hperm, hnd⟩ := h
  refine ⟨?_, ?_, hnd⟩
  · intro o ho
    rcases List.mem_append.mp ho with h1 | h1
    · exact hns o (by rw [hl]; exact List.mem_append_left _ h1)
    · rcases List.mem_cons.mp h1 with rfl | h2
      · simp [objName]
      · exact hns o (by
          rw [hl]; exact List.mem_append_right _ (List.mem_cons_of_mem _ h2))
  · have e1 : objNames (pre ++ PickleObj.feedObj g :: rest)
        = objNames (pre ++ PickleObj.feedObj f :: rest) := by
      rw [objNames_append, objNames_append]
      simp [objNames, List.filterMap_cons, objName, hg, hfn]
    rw [e1, ← hl]
    exact hperm

theorem change_rename_inv {name : String} (fs : FeedSource)
    (pre rest : List PickleObj) (f g : Feed) (n2 : String)
    (hl : fs.feeds = pre ++ .feedObj f :: rest) (hfn : f.name = name)
    (hpre : ∀ o ∈ pre, ∃ g2, o = PickleObj.feedObj g2 ∧ g2.name ≠ name)
    (hg : g.name = n2) (hn2 : n2 ∉ fs.feed_names) (h : StrongInv fs) :
    StrongInv ⟨pre ++ .feedObj g :: rest, fs.feed_names.erase name ++ [n2]⟩ := by
  obtain ⟨hns, hperm, hnd⟩ := h
  refine ⟨?_, ?_, ?_⟩
  · intro o ho
    rcases List.mem_append.mp ho with h1 | h1
    · exact hns o (by rw [hl]; exact List.mem_append_left _ h1)
    · rcases List.mem_cons.mp h1 with rfl | h2
      · simp [objName]
      · exact hns o (by
          rw [hl]; exact List.mem_append_right _ (List.mem_cons_of_mem _ h2))
  · show List.Perm (objNames (pre ++ PickleObj.feedObj g :: rest))
      (fs.feed_names.erase name ++ [n2])
    have e1 : objNames (pre ++ PickleObj.feedObj g :: rest)
        = objNames pre ++ n2 :: objNames rest := by
      rw [objNames_append]
      simp [objNames, List.filterMap_cons, objName, hg]
    rw [e1]
    have p1 : List.Perm (objNames pre ++ n2 :: objNames rest)
        (n2 :: (objNames pre ++ objNames rest)) := List.perm_middle
    have p2 : List.Perm (objNames pre ++ objNames rest)
        (fs.feed_names.erase name) := by
      rw [erase_key hfn hpre, ← hl]
      exact hperm.erase name
    have p3 : List.Perm (n2 :: fs.feed_names.erase name)
        (fs.feed_names.erase name ++ [n2]) :=
      (List.perm_append_singleton n2 (fs.feed_names.erase name)).symm
    exact (p1.trans (p2.cons n2)).trans p3
  · show (fs.feed_names.erase name ++ [n2]).Nodup
    rw [List.nodup_append]
    refine ⟨hnd.erase name, List.nodup_singleton n2, ?_⟩
    intro a ha hb
    rcases List.mem_singleton.mp hb with rfl
    exact hn2 (List.mem_of_mem_erase ha)

theorem change_inv (fs : FeedSource) (name : String) (nl nn : Option String)
    (h : StrongInv fs) : StrongInv (fs.change name nl nn) := by
  cases nn with
  | none =>
    cases nl with
    | none =>
      unfold FeedSource.change
      rw [if_pos ⟨rfl, rfl⟩]
      exact h
    | some l =>
      unfold FeedSource.change
      rw [if_neg (by simp)]
      cases hscan : scanFirst name fs.feeds with
      | notFound => exact h
      | raised => exact h
      | found pre f rest =>
        dsimp only
        obtain ⟨hl, hfn, hpre⟩ := scanFirst_shape hscan
        exact change_keep_inv fs pre rest f { f with link := l } hl hfn hfn h
  | some n2 =>
    unfold FeedSource.change
    rw [if_neg (by simp)]
    cases hscan : scanFirst name fs.feeds with
    | notFound => exact h
    | raised => exact h
    | found pre f rest =>
      dsimp only
      obtain ⟨hl, hfn, hpre⟩ := scanFirst_shape hscan
      cases nl with
      | none =>
        dsimp only
        by_cases hn2 : n2 ∈ fs.feed_names
        · rw [if_pos hn2]
          exact change_keep_inv fs pre rest f f hl hfn hfn h
        · rw [if_neg hn2, if_pos (found_name_mem fs hl hfn h.2.1)]
          exact change_rename_inv fs pre rest f { f with name := n2 } n2
            hl hfn hpre rfl hn2 h
      | some l =>
        dsimp only
        by_cases hn2 : n2 ∈ fs.feed_names
        · rw [if_pos hn2]
          exact change_keep_inv fs pre rest f { f with link := l } hl hfn hfn h
        · rw [if_neg hn2, if_pos (found_name_mem fs hl hfn h.2.1)]
          exact change_rename_inv fs pre rest f { f with link := l, name := n2 } n2
            hl hfn hpre rfl hn2 h

theorem save_good (fs : FeedSource) (files : String → FileContent) (p : String)
    (h : StrongInv fs) (hf : ∀ q, GoodContent (files q)) :
    ∀ q, GoodContent (fs.save files p q) := by
  intro q
  unfold FeedSource.save
  by_cases hq : q = p
  · rw [if_pos hq]
    exact ⟨h.1, (h.2.1.nodup_iff).mpr h.2.2⟩
  · rw [if_neg hq]
    exact hf q

theorem load_inv (fs : FeedSource) (c : FileContent) (hc : GoodContent c)
    (h : StrongInv fs) : StrongInv (fs.load c) := by
  cases c with
  | missing => exact h
  | corrupt => exact h
  | stored objs =>
    obtain ⟨hall, hnd⟩ := hc
    unfold FeedSource.load
    dsimp only
    rw [namesOfAll_eq objs hall]
    exact ⟨hall, List.Perm.refl _, hnd⟩

theorem step_inv (probe : String → Nat) (w : World) (op : Op)
    (h : WorldInv w) : WorldInv (step probe w op) := by
  cases op with
  | add l n t => exact ⟨add_inv probe w.reg l n t h.1, h.2⟩
  | remove n => exact ⟨remove_inv w.reg n h.1, h.2⟩
  | change n nl nn => exact ⟨change_inv w.reg n nl nn h.1, h.2⟩
  | save p => exact ⟨h.1, save_good w.reg w.files p h.1 h.2⟩
  | load p => exact ⟨load_inv w.reg (w.files p) (h.2 p) h.1, h.2⟩

theorem run_inv (probe : String → Nat) :
    ∀ (ops : List Op) (w : World), WorldInv w → WorldInv (run probe w ops) := by
  intro ops
  induction ops with
  | nil => intro w h; exact h
  | cons op rest ih => intro w h; exact ih _ (step_inv probe w op h)

/-- C3 (amended): add, remove, change, and save always preserve the 1:1
correspondence between the name index and the feed collection, and load
preserves it provided the loaded file is missing, fails at deserialization, or
deserializes to a junk-free list of feeds with pairwise distinct names —
exactly what save writes from a healthy registry.  Hence from the empty
registry, over any file system all of whose files are of that shape, the
correspondence holds after every operation sequence (and so after each
operation, every prefix being itself a sequence). -/
theorem registry_invariant (probe : String → Nat) (files : String → FileContent)
    (hfiles : ∀ p, GoodContent (files p)) (ops : List Op) :
    ClaimInv (run probe ⟨FeedSource.empty, files⟩ ops).reg := by
  have hW : WorldInv ⟨FeedSource.empty, files⟩ := by
    refine ⟨⟨?_, ?_, ?_⟩, hfiles⟩
    · intro o ho; cases ho
    · exact List.Perm.refl _
    · exact List.nodup_nil
  exact strongInv_claimInv _ (run_inv probe ops _ hW).1

/-- C3 witness: a concrete add, save, load, remove sequence over an initially
empty file system keeps the invariant. -/
theorem claim_C3_witness :
    ClaimInv (run (fun _ => 200) ⟨FeedSource.empty, fun _ => .missing⟩
      [.add "l" "n" 0, .save "p", .load "p", .remove "n"]).reg :=
  registry_invariant (fun _ => 200) (fun _ => .missing) (fun _ => trivial) _


end Acafeed
